import Mathlib

/-!
Verification of the `AnalogBuffer` buffer stage of the mixed-mode
finite-event simulator (`mixed_mode_simulator/sample_and_hold.py`).

The Python code is a SimPy generator-based discrete-event simulation.
We embed it shallowly:

* Durations are rationals (`ℚ`); the Python code performs no operation
  on them other than addition by the virtual clock.
* Each generator (`sample_and_hold_unit`, `remove_from_buffer`,
  `buffer_in`) becomes a pure function producing the ordered trace of
  its observable steps: timed suspensions (`yield env.timeout`),
  routing requests issued to the downstream AMUX, and the cell-entry
  markers of the debug trace, plus the increment it applies to the
  stage's `downstream_events_processed` counter and the outcome of the
  awaited downstream process.
* The external scheduling engine (SimPy) is modelled by a small
  discrete-event scheduler over processes that are lists of steps,
  following the contract of the engine: resume the pending process
  with the least wake-up time (FIFO tie-break), run it to its next
  suspension, and stop at quiescence.

The AMUX routing stage is external to the repository; per its call
contract it is modelled as a capability: `entry_point` takes the
source stage index and the event and yields a virtual-time cost and a
success-or-failure result.
-/

/-- Outcome of one call to a downstream routing stage's `entry_point`:
the virtual time the spawned process consumes before completing, and
whether it completes successfully or fails with a reason. -/
structure MuxOutcome where
  time : ℚ
  result : Except String Unit

/-- The downstream AMUX routing stage, modelled only through its call
contract: `entry_point(buffer_index, event)` is a suspending process
that may take nonzero virtual time and may fail. -/
structure AMUX (Ev : Type) where
  entry_point : Nat → Ev → MuxOutcome

/-- One observable step of a buffer-stage generator: entering a
sample-and-hold cell (the debug-trace position marker), suspending on
the virtual clock (`yield env.timeout d`), or issuing a routing
request to the downstream mux tagged with the source stage's index
and carrying the event record. -/
inductive SimAction (Ev : Type) where
  | visit (unit_index : Nat)
  | suspend (d : ℚ)
  | request (source : Nat) (event : Ev)

/-- `AnalogBuffer.__init__`'s state: the fields the constructor sets on
`self` (the SimPy `env` handle is the external clock and is not part
of the stage's own data). -/
structure AnalogBuffer (Ev : Type) where
  amux : Option (AMUX Ev)
  buffer_index : Nat
  buffer_location : String
  sample_length : ℚ
  buffer_length : Nat
  chain_delay : ℚ
  debug : Bool
  downstream_events_processed : Nat

namespace AnalogBuffer

variable {Ev : Type}

/-- `AnalogBuffer.__init__`: `amux` starts as `None` and the
dropped-event counter `downstream_events_processed` starts at `0`. -/
def init (buffer_index : Nat) (buffer_location : String) (sample_length : ℚ)
    (buffer_length : Nat) (chain_delay : ℚ) (debug : Bool) : AnalogBuffer Ev :=
  { amux := none
    buffer_index := buffer_index
    buffer_location := buffer_location
    sample_length := sample_length
    buffer_length := buffer_length
    chain_delay := chain_delay
    debug := debug
    downstream_events_processed := 0 }

/-- `AnalogBuffer.set_amux`. -/
def set_amux (b : AnalogBuffer Ev) (amux : AMUX Ev) : AnalogBuffer Ev :=
  { b with amux := some amux }

/-- `AnalogBuffer.sample_and_hold_unit`: records its position in the
chain (the debug trace) and suspends for `sample_length`. It has no
other step and no failure branch. -/
def sample_and_hold_unit (b : AnalogBuffer Ev) (_event : Ev) (unit_index : Nat) :
    List (SimAction Ev) :=
  [SimAction.visit unit_index, SimAction.suspend b.sample_length]

/-- Result of running the `remove_from_buffer` generator to
completion: its trace of steps, the increment it applies to
`downstream_events_processed`, and whether the generator finishes
normally or the downstream process it awaited failed. -/
structure HandoffResult (Ev : Type) where
  actions : List (SimAction Ev)
  counterDelta : Nat
  outcome : Except String Unit

/-- `AnalogBuffer.remove_from_buffer`: if `mux is None`, increment
`downstream_events_processed` and finish without any suspension or
request; otherwise issue one routing request
`mux.entry_point(self.buffer_index, event)` and wait (suspend) for the
spawned process's outcome, propagating its failure. -/
def remove_from_buffer (b : AnalogBuffer Ev) (event : Ev) (mux : Option (AMUX Ev)) :
    HandoffResult Ev :=
  match mux with
  | none =>
      { actions := []
        counterDelta := 1
        outcome := Except.ok () }
  | some m =>
      let o := m.entry_point b.buffer_index event
      { actions := [SimAction.request b.buffer_index event, SimAction.suspend o.time]
        counterDelta := 0
        outcome := o.result }

/-- Result of running the per-event orchestration `buffer_in` to
completion: its trace, the counter increment, and the failure it
caught and suppressed at its `try/except` boundary, if any. -/
structure RunResult (Ev : Type) where
  actions : List (SimAction Ev)
  counterDelta : Nat
  caught : Option String

/-- The cell loop of `AnalogBuffer.buffer_in`:
`for i in range(self.buffer_length)`, run `sample_and_hold_unit(event, i)`
and then suspend for `chain_delay` — the chaining overhead is paid
after every cell, including the last. -/
def traversalActions (b : AnalogBuffer Ev) (event : Ev) : List (SimAction Ev) :=
  (List.range b.buffer_length).flatMap
    (fun i => b.sample_and_hold_unit event i ++ [SimAction.suspend b.chain_delay])

/-- `AnalogBuffer.buffer_in`: the cell loop followed by
`remove_from_buffer(event, self.amux)`; a failure of the awaited
handoff process is re-raised and then caught by the surrounding
`try/except Exception`, which logs it and suppresses it, so the
orchestration always runs to completion. -/
def buffer_in (b : AnalogBuffer Ev) (event : Ev) : RunResult Ev :=
  let h := b.remove_from_buffer event b.amux
  { actions := b.traversalActions event ++ h.actions
    counterDelta := h.counterDelta
    caught :=
      match h.outcome with
      | Except.ok _ => none
      | Except.error e => some e }

/-- The state of the stage after a run: the only field the Python code
ever assigns after construction (other than `set_amux` during
topology assembly) is `downstream_events_processed`. -/
def apply_run (b : AnalogBuffer Ev) (r : RunResult Ev) : AnalogBuffer Ev :=
  { b with downstream_events_processed := b.downstream_events_processed + r.counterDelta }

/-- One whole per-event unit of work on the stage's state:
`buffer_in` applied to the stage. -/
def run_event (b : AnalogBuffer Ev) (event : Ev) : AnalogBuffer Ev :=
  b.apply_run (b.buffer_in event)

end AnalogBuffer

/-- The virtual time a step of a trace consumes: suspensions take
their duration, cell-entry markers and request issuance are
instantaneous. -/
def SimAction.duration {Ev : Type} : SimAction Ev → ℚ
  | SimAction.visit _ => 0
  | SimAction.suspend d => d
  | SimAction.request _ _ => 0

/-- Whether a step is a routing request. -/
def SimAction.isRequest {Ev : Type} : SimAction Ev → Bool
  | SimAction.request _ _ => true
  | _ => false

/-- Total elapsed virtual time of a trace executed by a single
process with no interference: the sum of its suspension durations. -/
def elapsed {Ev : Type} (acts : List (SimAction Ev)) : ℚ :=
  (acts.map SimAction.duration).sum

/-!
The external scheduling engine, per its contract (§5 of the design):
single-threaded cooperative concurrency on a virtual clock.  A pending
process is a wake-up time together with the list of steps it has left;
a step either elapses virtual time (a `timeout`) or increments the
shared dropped-event counter (the only per-stage mutable shared
state).  At each scheduler step the earliest-waking pending process
(FIFO tie-break: the leftmost among those with minimal wake-up time)
performs its next step; the run stops at quiescence, when no process
remains.
-/

/-- One step of a scheduled process: elapse `d` of virtual time, or
atomically increment the shared dropped-event counter. -/
inductive PStep where
  | delay (d : ℚ)
  | incr

/-- A pending process: its wake-up time and its remaining steps. -/
abbrev PendingProc := ℚ × List PStep

/-- Pick, from the nonempty list `p :: ps`, the leftmost process with
minimal wake-up time; return it together with the others in their
original order. -/
def pickMin (p : PendingProc) : List PendingProc → PendingProc × List PendingProc
  | [] => (p, [])
  | q :: qs =>
    if p.1 ≤ q.1 then
      let r := pickMin p qs
      (r.1, q :: r.2)
    else
      let r := pickMin q qs
      (r.1, p :: r.2)

/-- State of a simulation run: current virtual time, the shared
dropped-event counter, and the pending processes. -/
structure SimState where
  now : ℚ
  counter : Nat
  procs : List PendingProc

/-- Size measure: total number of scheduler steps a process list can
still perform (each step consumes one `PStep` or retires one emptied
process). -/
def procsSize (ps : List PendingProc) : Nat :=
  (ps.map (fun p => p.2.length + 1)).sum

/-- Fuelled scheduler: with enough fuel, runs the pending processes to
quiescence, always resuming the earliest-waking process first. -/
def runSimFuel : Nat → SimState → SimState
  | 0, s => s
  | fuel + 1, s =>
    match s.procs with
    | [] => s
    | p :: ps =>
      let r := pickMin p ps
      match r.1.2 with
      | [] =>
          runSimFuel fuel { now := max s.now r.1.1, counter := s.counter, procs := r.2 }
      | PStep.incr :: steps =>
          runSimFuel fuel
            { now := max s.now r.1.1, counter := s.counter + 1, procs := (r.1.1, steps) :: r.2 }
      | PStep.delay d :: steps =>
          runSimFuel fuel
            { now := max s.now r.1.1, counter := s.counter, procs := (r.1.1 + d, steps) :: r.2 }

/-- Run a simulation to quiescence (`env.run()`): `procsSize` steps
always suffice. -/
def runSim (s : SimState) : SimState :=
  runSimFuel (procsSize s.procs) s

/-- Sum of the delays a step list still has to elapse. -/
def delaysSum : List PStep → ℚ
  | [] => 0
  | PStep.delay d :: rest => d + delaysSum rest
  | PStep.incr :: rest => delaysSum rest

/-- The virtual time at which a pending process, run without
interference, performs its last step. -/
def finishTime (p : PendingProc) : ℚ :=
  p.1 + delaysSum p.2

/-- The maximum of `t` and the finish times of the processes. -/
def maxFinish (t : ℚ) : List PendingProc → ℚ
  | [] => t
  | p :: ps => max (finishTime p) (maxFinish t ps)

/-- Number of counter increments a step list still performs. -/
def incrCount : List PStep → Nat
  | [] => 0
  | PStep.incr :: rest => incrCount rest + 1
  | PStep.delay _ :: rest => incrCount rest

/-- Total number of counter increments the pending processes still
perform. -/
def totalIncrs (ps : List PendingProc) : Nat :=
  (ps.map (fun p => incrCount p.2)).sum

/-- All delays of a step list are non-negative. -/
def nonnegSteps (l : List PStep) : Prop :=
  ∀ d : ℚ, PStep.delay d ∈ l → 0 ≤ d

/-- All delays of all pending processes are non-negative. -/
def nonnegProcs (ps : List PendingProc) : Prop :=
  ∀ p ∈ ps, nonnegSteps p.2

/-- The steps a completed per-event run contributes to the scheduler:
its suspensions become delays, and its counter increment (performed by
`remove_from_buffer` when no downstream mux exists) becomes an
atomic increment of the shared counter. -/
def AnalogBuffer.RunResult.toSteps {Ev : Type} (r : AnalogBuffer.RunResult Ev) : List PStep :=
  (r.actions.filterMap fun a =>
    match a with
    | SimAction.suspend d => some (PStep.delay d)
    | _ => none) ++ List.replicate r.counterDelta PStep.incr

/-- The per-event processes that `test_multiple_events` /
`multiple_event_helper` spawn: event `i` starts its `buffer_in` at
virtual time `i` (the helper separates consecutive starts by a
`timeout(1)`). -/
def multiEventProcs (N : Nat) (b : AnalogBuffer Nat) : List PendingProc :=
  (List.range N).map (fun (i : Nat) => ((i : ℚ), (b.buffer_in i).toSteps))

/-- Per-event processes for an arbitrary list of (start time, event)
pairs fed to the same stage. -/
def startedProcs {Ev : Type} (b : AnalogBuffer Ev) (starts : List (ℚ × Ev)) :
    List PendingProc :=
  starts.map (fun p => (p.1, (b.buffer_in p.2).toSteps))

/-- The stage built by the test suite's `setUp`:
`AnalogBuffer(env, 0, "ring", 1, 5, 0, debug=True)` — five cells,
per-cell time 1, chaining overhead 0, no downstream mux. -/
def testStage : AnalogBuffer Nat :=
  AnalogBuffer.init 0 "ring" 1 5 0 true

/-- A downstream routing stage that rejects every handoff
immediately. -/
def rejectingMux : AMUX Nat :=
  { entry_point := fun _ _ => { time := 0, result := Except.error "RoutingRejection" } }

/-- A downstream routing stage that accepts every handoff
immediately. -/
def acceptingMux : AMUX Nat :=
  { entry_point := fun _ _ => { time := 0, result := Except.ok () } }

/-! Properties of the scheduler. -/

theorem pickMin_perm (p : PendingProc) (ps : List PendingProc) :
    List.Perm ((pickMin p ps).1 :: (pickMin p ps).2) (p :: ps) := by
  induction ps generalizing p with
  | nil => simp [pickMin]
  | cons q qs ih =>
    by_cases h : p.1 ≤ q.1
    · simp only [pickMin, if_pos h]
      exact ((List.Perm.swap q (pickMin p qs).1 (pickMin p qs).2).trans
        (((ih p).cons q).trans (List.Perm.swap p q qs)))
    · simp only [pickMin, if_neg h]
      exact ((List.Perm.swap p (pickMin q qs).1 (pickMin q qs).2).trans
        ((ih q).cons p))

theorem procsSize_cons (p : PendingProc) (ps : List PendingProc) :
    procsSize (p :: ps) = p.2.length + 1 + procsSize ps := by
  simp [procsSize]

theorem procsSize_perm {l l' : List PendingProc} (h : List.Perm l l') :
    procsSize l = procsSize l' :=
  List.Perm.sum_eq (h.map _)

theorem totalIncrs_cons (p : PendingProc) (ps : List PendingProc) :
    totalIncrs (p :: ps) = incrCount p.2 + totalIncrs ps := by
  simp [totalIncrs]

theorem totalIncrs_perm {l l' : List PendingProc} (h : List.Perm l l') :
    totalIncrs l = totalIncrs l' :=
  List.Perm.sum_eq (h.map _)

theorem maxFinish_perm (t : ℚ) {l l' : List PendingProc} (h : List.Perm l l') :
    maxFinish t l = maxFinish t l' := by
  induction h with
  | nil => rfl
  | cons x _ ih => simp [maxFinish, ih]
  | swap x y l => simp [maxFinish, max_left_comm]
  | trans _ _ ih1 ih2 => exact ih1.trans ih2

theorem maxFinish_max (a t : ℚ) (l : List PendingProc) :
    maxFinish (max a t) l = max a (maxFinish t l) := by
  induction l with
  | nil => rfl
  | cons p ps ih => simp [maxFinish, ih, max_left_comm]

theorem procsSize_eq_zero {ps : List PendingProc} (h : procsSize ps = 0) : ps = [] := by
  cases ps with
  | nil => rfl
  | cons p l => rw [procsSize_cons] at h; omega

theorem delaysSum_nonneg {l : List PStep} (h : nonnegSteps l) : 0 ≤ delaysSum l := by
  induction l with
  | nil => simp [delaysSum]
  | cons s rest ih =>
    have hrest : nonnegSteps rest := fun d hd => h d (List.mem_cons_of_mem _ hd)
    cases s with
    | incr => simpa [delaysSum] using ih hrest
    | delay d =>
      have hd : 0 ≤ d := h d (List.mem_cons_self _ _)
      have := ih hrest
      simp only [delaysSum]
      linarith

theorem nonnegProcs_perm {l l' : List PendingProc} (h : List.Perm l l')
    (hl : nonnegProcs l) : nonnegProcs l' :=
  fun p hp => hl p (h.mem_iff.mpr hp)

theorem runSimFuel_counter (fuel : Nat) :
    ∀ (tn : ℚ) (c : Nat) (procs : List PendingProc), procsSize procs ≤ fuel →
      (runSimFuel fuel ⟨tn, c, procs⟩).counter = c + totalIncrs procs := by
  induction fuel with
  | zero =>
    intro tn c procs h
    rw [procsSize_eq_zero (Nat.le_zero.mp h)]
    simp [runSimFuel, totalIncrs]
  | succ fuel ih =>
    intro tn c procs h
    cases procs with
    | nil => simp [runSimFuel, totalIncrs]
    | cons p ps =>
      have hsize := procsSize_perm (pickMin_perm p ps)
      have hti := totalIncrs_perm (pickMin_perm p ps)
      rw [procsSize_cons] at hsize
      rw [totalIncrs_cons] at hti
      cases hr2 : (pickMin p ps).1.2 with
      | nil =>
        simp only [runSimFuel, hr2]
        rw [hr2] at hsize hti
        rw [ih _ _ _ (by simp at hsize; omega)]
        simp [incrCount] at hti
        omega
      | cons st steps =>
        cases st with
        | delay d =>
          simp only [runSimFuel, hr2]
          rw [hr2] at hsize hti
          rw [ih _ _ _ (by rw [procsSize_cons]; simp at hsize ⊢; omega)]
          rw [totalIncrs_cons]
          simp [incrCount] at hti ⊢
          omega
        | incr =>
          simp only [runSimFuel, hr2]
          rw [hr2] at hsize hti
          rw [ih _ _ _ (by rw [procsSize_cons]; simp at hsize ⊢; omega)]
          rw [totalIncrs_cons]
          simp [incrCount] at hti ⊢
          omega

theorem nonnegSteps_tail {s : PStep} {l : List PStep} (h : nonnegSteps (s :: l)) :
    nonnegSteps l :=
  fun d hd => h d (List.mem_cons_of_mem _ hd)

theorem max_absorb_mid {w f m : ℚ} (h : w ≤ f) : max f (max w m) = max f m := by
  rw [← max_assoc, max_eq_left h]

theorem runSimFuel_now (fuel : Nat) :
    ∀ (tn : ℚ) (c : Nat) (procs : List PendingProc), procsSize procs ≤ fuel →
      nonnegProcs procs →
      (runSimFuel fuel ⟨tn, c, procs⟩).now = maxFinish tn procs := by
  induction fuel with
  | zero =>
    intro tn c procs h _
    rw [procsSize_eq_zero (Nat.le_zero.mp h)]
    simp [runSimFuel, maxFinish]
  | succ fuel ih =>
    intro tn c procs h hn
    cases procs with
    | nil => simp [runSimFuel, maxFinish]
    | cons p ps =>
      have hperm := pickMin_perm p ps
      have hsize := procsSize_perm hperm
      have hmf := maxFinish_perm tn hperm
      have hnn : nonnegProcs ((pickMin p ps).1 :: (pickMin p ps).2) :=
        nonnegProcs_perm hperm.symm hn
      have hnhead : nonnegSteps (pickMin p ps).1.2 :=
        hnn _ (List.mem_cons_self _ _)
      have hnrest : nonnegProcs (pickMin p ps).2 :=
        fun q hq => hnn q (List.mem_cons_of_mem _ hq)
      rw [procsSize_cons] at hsize
      cases hr2 : (pickMin p ps).1.2 with
      | nil =>
        simp only [runSimFuel, hr2]
        rw [ih _ _ _ (by simp [hr2] at hsize; omega) hnrest]
        rw [← hmf]
        rw [max_comm tn, maxFinish_max]
        simp [maxFinish, finishTime, hr2, delaysSum]
      | cons st steps =>
        rw [hr2] at hnhead
        cases st with
        | delay d =>
          simp only [runSimFuel, hr2]
          have hszrec : procsSize (((pickMin p ps).1.1 + d, steps) :: (pickMin p ps).2) ≤ fuel := by
            simp only [procsSize_cons]
            simp [hr2] at hsize ⊢
            omega
          have hnrec : nonnegProcs (((pickMin p ps).1.1 + d, steps) :: (pickMin p ps).2) := by
            intro q hq
            rcases List.mem_cons.mp hq with hq | hq
            · rw [hq]
              exact nonnegSteps_tail hnhead
            · exact hnrest q hq
          rw [ih _ _ _ hszrec hnrec]
          rw [← hmf]
          simp only [maxFinish]
          rw [max_comm tn, maxFinish_max]
          have hfin : finishTime ((pickMin p ps).1.1 + d, steps) = finishTime (pickMin p ps).1 := by
            simp [finishTime, hr2, delaysSum]
            ring
          rw [hfin]
          exact max_absorb_mid (by
            have := delaysSum_nonneg hnhead
            simp only [finishTime, hr2]
            linarith)
        | incr =>
          simp only [runSimFuel, hr2]
          have hszrec : procsSize (((pickMin p ps).1.1, steps) :: (pickMin p ps).2) ≤ fuel := by
            simp only [procsSize_cons]
            simp [hr2] at hsize ⊢
            omega
          have hnrec : nonnegProcs (((pickMin p ps).1.1, steps) :: (pickMin p ps).2) := by
            intro q hq
            rcases List.mem_cons.mp hq with hq | hq
            · rw [hq]
              exact nonnegSteps_tail hnhead
            · exact hnrest q hq
          rw [ih _ _ _ hszrec hnrec]
          rw [← hmf]
          simp only [maxFinish]
          rw [max_comm tn, maxFinish_max]
          have hfin : finishTime ((pickMin p ps).1.1, steps) = finishTime (pickMin p ps).1 := by
            simp [finishTime, hr2, delaysSum]
          rw [hfin]
          exact max_absorb_mid (by
            have := delaysSum_nonneg hnhead
            simp only [finishTime, hr2]
            linarith)

theorem runSim_now {s : SimState} (hn : nonnegProcs s.procs) :
    (runSim s).now = maxFinish s.now s.procs := by
  obtain ⟨tn, c, procs⟩ := s
  exact runSimFuel_now _ _ _ _ (Nat.le_refl _) hn

theorem runSim_counter (s : SimState) :
    (runSim s).counter = s.counter + totalIncrs s.procs := by
  obtain ⟨tn, c, procs⟩ := s
  exact runSimFuel_counter _ _ _ _ (Nat.le_refl _)

/-! From per-event traces to scheduler processes. -/

theorem elapsed_cons {Ev : Type} (a : SimAction Ev) (l : List (SimAction Ev)) :
    elapsed (a :: l) = a.duration + elapsed l := by
  simp [elapsed]

theorem elapsed_append {Ev : Type} (l l' : List (SimAction Ev)) :
    elapsed (l ++ l') = elapsed l + elapsed l' := by
  simp [elapsed]

theorem delaysSum_append (l l' : List PStep) :
    delaysSum (l ++ l') = delaysSum l + delaysSum l' := by
  induction l with
  | nil => simp [delaysSum]
  | cons s rest ih => cases s <;> simp [delaysSum, ih] <;> ring

theorem delaysSum_replicate_incr (n : Nat) :
    delaysSum (List.replicate n PStep.incr) = 0 := by
  induction n with
  | zero => rfl
  | succ n ih => simp [List.replicate_succ, delaysSum, ih]

theorem delaysSum_filterMap {Ev : Type} (acts : List (SimAction Ev)) :
    delaysSum (acts.filterMap fun a =>
      match a with
      | SimAction.suspend d => some (PStep.delay d)
      | _ => none) = elapsed acts := by
  induction acts with
  | nil => simp [delaysSum, elapsed]
  | cons a rest ih =>
    cases a <;>
      simp [List.filterMap_cons, delaysSum, elapsed_cons, SimAction.duration, ih]

theorem toSteps_delaysSum {Ev : Type} (r : AnalogBuffer.RunResult Ev) :
    delaysSum r.toSteps = elapsed r.actions := by
  simp [AnalogBuffer.RunResult.toSteps, delaysSum_append, delaysSum_replicate_incr,
    delaysSum_filterMap]

theorem incrCount_append (l l' : List PStep) :
    incrCount (l ++ l') = incrCount l + incrCount l' := by
  induction l with
  | nil => simp [incrCount]
  | cons s rest ih => cases s <;> simp [incrCount, ih] <;> omega

theorem incrCount_replicate_incr (n : Nat) :
    incrCount (List.replicate n PStep.incr) = n := by
  induction n with
  | zero => rfl
  | succ n ih => simp [List.replicate_succ, incrCount, ih]

theorem incrCount_filterMap {Ev : Type} (acts : List (SimAction Ev)) :
    incrCount (acts.filterMap fun a =>
      match a with
      | SimAction.suspend d => some (PStep.delay d)
      | _ => none) = 0 := by
  induction acts with
  | nil => rfl
  | cons a rest ih => cases a <;> simp [List.filterMap_cons, incrCount, ih]

theorem toSteps_incrCount {Ev : Type} (r : AnalogBuffer.RunResult Ev) :
    incrCount r.toSteps = r.counterDelta := by
  simp [AnalogBuffer.RunResult.toSteps, incrCount_append, incrCount_replicate_incr,
    incrCount_filterMap]

theorem maxFinish_append (t : ℚ) (l l' : List PendingProc) :
    maxFinish t (l ++ l') = maxFinish (maxFinish t l') l := by
  induction l with
  | nil => rfl
  | cons p ps ih => simp [maxFinish, ih]

/-! Properties of the stage's per-event trace. -/

theorem traversalActions_flat {Ev : Type} (b : AnalogBuffer Ev) (event : Ev) :
    b.traversalActions event = (List.range b.buffer_length).flatMap
      (fun i => [SimAction.visit i, SimAction.suspend b.sample_length,
                 SimAction.suspend b.chain_delay]) := rfl

theorem elapsed_flat {Ev : Type} (P D : ℚ) (l : List Nat) :
    elapsed ((l.flatMap fun i => [SimAction.visit i, SimAction.suspend P,
        SimAction.suspend D]) : List (SimAction Ev)) = l.length * (P + D) := by
  induction l with
  | nil => simp [elapsed]
  | cons i rest ih =>
    simp only [List.flatMap_cons, elapsed_append, ih, List.length_cons]
    simp [elapsed, SimAction.duration]
    ring

theorem elapsed_traversal {Ev : Type} (b : AnalogBuffer Ev) (event : Ev) :
    elapsed (b.traversalActions event) =
      (b.buffer_length : ℚ) * (b.sample_length + b.chain_delay) := by
  rw [traversalActions_flat, elapsed_flat, List.length_range]

theorem buffer_in_none {Ev : Type} (b : AnalogBuffer Ev) (event : Ev)
    (h : b.amux = none) :
    b.buffer_in event =
      { actions := b.traversalActions event, counterDelta := 1, caught := none } := by
  simp [AnalogBuffer.buffer_in, AnalogBuffer.remove_from_buffer, h]

theorem buffer_in_some {Ev : Type} (b : AnalogBuffer Ev) (event : Ev) (m : AMUX Ev)
    (h : b.amux = some m) :
    b.buffer_in event =
      { actions := b.traversalActions event ++
          [SimAction.request b.buffer_index event,
           SimAction.suspend (m.entry_point b.buffer_index event).time]
        counterDelta := 0
        caught :=
          match (m.entry_point b.buffer_index event).result with
          | Except.ok _ => none
          | Except.error e => some e } := by
  simp [AnalogBuffer.buffer_in, AnalogBuffer.remove_from_buffer, h]

theorem suspend_mem_traversal {Ev : Type} (b : AnalogBuffer Ev) (event : Ev) (d : ℚ)
    (h : SimAction.suspend d ∈ b.traversalActions event) :
    d = b.sample_length ∨ d = b.chain_delay := by
  rw [traversalActions_flat] at h
  rcases List.mem_flatMap.mp h with ⟨i, _, hmem⟩
  simp only [List.mem_cons, List.not_mem_nil, or_false] at hmem
  rcases hmem with h1 | h1 | h1
  · exact SimAction.noConfusion h1
  · exact Or.inl (by injection h1)
  · exact Or.inr (by injection h1)

theorem nonnegSteps_toSteps {Ev : Type} (r : AnalogBuffer.RunResult Ev)
    (h : ∀ d : ℚ, SimAction.suspend d ∈ r.actions → 0 ≤ d) :
    nonnegSteps r.toSteps := by
  intro d hd
  rcases List.mem_append.mp hd with hd | hd
  · rcases List.mem_filterMap.mp hd with ⟨a, ha, hfa⟩
    cases a with
    | visit _ => exact absurd hfa (by simp)
    | request _ _ => exact absurd hfa (by simp)
    | suspend d' =>
      have : d' = d := by
        simp only [Option.some.injEq] at hfa
        injection hfa
      exact this ▸ h d' ha
  · exact absurd (List.eq_of_mem_replicate hd) (by simp)

theorem nonnegSteps_buffer_in {Ev : Type} (b : AnalogBuffer Ev) (event : Ev)
    (hP : 0 ≤ b.sample_length) (hD : 0 ≤ b.chain_delay)
    (hm : ∀ m : AMUX Ev, b.amux = some m → 0 ≤ (m.entry_point b.buffer_index event).time) :
    nonnegSteps ((b.buffer_in event).toSteps) := by
  apply nonnegSteps_toSteps
  intro d hd
  cases ha : b.amux with
  | none =>
    rw [buffer_in_none b event ha] at hd
    rcases suspend_mem_traversal b event d hd with h | h <;> rw [h] <;> assumption
  | some m =>
    rw [buffer_in_some b event m ha] at hd
    rcases List.mem_append.mp hd with hd | hd
    · rcases suspend_mem_traversal b event d hd with h | h <;> rw [h] <;> assumption
    · simp only [List.mem_cons, List.not_mem_nil, or_false] at hd
      rcases hd with h1 | h1
      · exact SimAction.noConfusion h1
      · have hdm : d = (m.entry_point b.buffer_index event).time := by injection h1
        exact hdm ▸ hm m ha

theorem totalIncrs_startedProcs {Ev : Type} (b : AnalogBuffer Ev)
    (h : b.amux = none) (starts : List (ℚ × Ev)) :
    totalIncrs (startedProcs b starts) = starts.length := by
  induction starts with
  | nil => simp [startedProcs, totalIncrs]
  | cons s rest ih =>
    simp only [startedProcs, List.map_cons, totalIncrs_cons, List.length_cons]
    rw [toSteps_incrCount, buffer_in_none b s.2 h]
    simp only [startedProcs] at ih
    rw [ih]
    simp
    omega

/-! The stage built by the test suite, concretely. -/

theorem testStage_toSteps (i : Nat) :
    (testStage.buffer_in i).toSteps =
      [PStep.delay 1, PStep.delay 0, PStep.delay 1, PStep.delay 0, PStep.delay 1,
       PStep.delay 0, PStep.delay 1, PStep.delay 0, PStep.delay 1, PStep.delay 0,
       PStep.incr] := rfl

theorem testStage_delaysSum (i : Nat) :
    delaysSum ((testStage.buffer_in i).toSteps) = 5 := by
  rw [testStage_toSteps]
  norm_num [delaysSum]

theorem testStage_nonnegSteps (i : Nat) :
    nonnegSteps ((testStage.buffer_in i).toSteps) := by
  rw [testStage_toSteps]
  intro d hd
  simp only [List.mem_cons, List.not_mem_nil, or_false] at hd
  rcases hd with h | h | h | h | h | h | h | h | h | h | h <;>
    first
      | exact SimAction.noConfusion h
      | (exact PStep.noConfusion h)
      | (have : d = 1 := by injection h
         rw [this]; norm_num)
      | (have : d = 0 := by injection h
         rw [this])

theorem multiEventProcs_nonneg (N : Nat) : nonnegProcs (multiEventProcs N testStage) := by
  intro q hq
  rcases List.mem_map.mp hq with ⟨i, _, hqi⟩
  rw [← hqi]
  exact testStage_nonnegSteps i

theorem multiEventProcs_maxFinish (N : Nat) (h : 1 ≤ N) :
    maxFinish 0 (multiEventProcs N testStage) = (N : ℚ) - 1 + 5 := by
  induction N, h using Nat.le_induction with
  | base =>
    simp only [multiEventProcs, List.range_succ, List.range_zero, List.nil_append,
      List.map_cons, List.map_nil, maxFinish, finishTime, testStage_delaysSum]
    norm_num
  | succ N hN ih =>
    simp only [multiEventProcs, List.range_succ, List.map_append, List.map_cons,
      List.map_nil]
    rw [maxFinish_append]
    simp only [maxFinish, finishTime, testStage_delaysSum]
    rw [maxFinish_max]
    simp only [multiEventProcs] at ih
    rw [ih]
    have h5 : ((N : ℚ) - 1 + 5) ≤ (N : ℚ) + 5 := by linarith
    rw [max_eq_left h5]
    push_cast
    ring

/-! The claims. -/

/-- C1: for every buffer stage with cell count `C = buffer_length`,
per-cell time `P = sample_length` and chaining overhead
`D = chain_delay`, and every event, the cell loop of `buffer_in`
visits the cells in index order `0 .. C-1`, suspending for exactly `P`
at each cell and for exactly `D` after every cell including the last,
so the traversal's total elapsed virtual time is `C * (P + D)`;
concretely, for the test stage (`C = 5`, `P = 1`, `D = 0`) a single
event started at virtual time `0` completes at virtual time `5`. -/
theorem claim_C1 {Ev : Type} (b : AnalogBuffer Ev) (event : Ev) :
    b.traversalActions event = (List.range b.buffer_length).flatMap
      (fun i => [SimAction.visit i, SimAction.suspend b.sample_length,
                 SimAction.suspend b.chain_delay])
  ∧ elapsed (b.traversalActions event) =
      (b.buffer_length : ℚ) * (b.sample_length + b.chain_delay)
  ∧ (runSim ⟨0, 0, [((0 : ℚ), (testStage.buffer_in 0).toSteps)]⟩).now = 5 := by
  refine ⟨rfl, elapsed_traversal b event, ?_⟩
  rw [runSim_now (by
    intro q hq
    simp only [List.mem_cons, List.not_mem_nil, or_false] at hq
    rw [hq]
    exact testStage_nonnegSteps 0)]
  simp [maxFinish, finishTime, testStage_delaysSum]

/-- C2: for every stage whose downstream reference is unset, the
handoff `remove_from_buffer` performs no suspension and issues no
routing request, increments `downstream_events_processed` by exactly
one, and finishes without error — a terminal drop is counted, never
raised. -/
theorem claim_C2 {Ev : Type} (b : AnalogBuffer Ev) (event : Ev)
    (h : b.amux = none) :
    b.remove_from_buffer event b.amux =
      { actions := [], counterDelta := 1, outcome := Except.ok () }
  ∧ (b.run_event event).downstream_events_processed =
      b.downstream_events_processed + 1
  ∧ (b.buffer_in event).caught = none := by
  rw [h]
  refine ⟨rfl, ?_, ?_⟩
  · simp [AnalogBuffer.run_event, AnalogBuffer.apply_run, buffer_in_none b event h]
  · simp [buffer_in_none b event h]

/-- Witness for C2: the test suite's stage has no downstream mux; one
run increments its counter from 0 to 1 and catches nothing. -/
theorem claim_C2_witness :
    testStage.remove_from_buffer 0 testStage.amux =
      { actions := [], counterDelta := 1, outcome := Except.ok () }
  ∧ (testStage.run_event 0).downstream_events_processed =
      testStage.downstream_events_processed + 1
  ∧ (testStage.buffer_in 0).caught = none :=
  claim_C2 testStage 0 rfl

theorem traversal_no_request {Ev : Type} (b : AnalogBuffer Ev) (event : Ev) :
    (b.traversalActions event).countP (fun a => a.isRequest) = 0 := by
  rw [List.countP_eq_zero]
  rw [traversalActions_flat]
  intro a ha
  rcases List.mem_flatMap.mp ha with ⟨i, _, hmem⟩
  simp only [List.mem_cons, List.not_mem_nil, or_false] at hmem
  rcases hmem with h | h | h <;> rw [h] <;> simp [SimAction.isRequest]

/-- C3: a failure raised by the downstream entry point during handoff
is caught at `buffer_in`'s `try/except` boundary and recorded as a
suppressed outcome — the per-event run still produces its complete
trace and propagates nothing — and a subsequent independent event `B`
on the same stage is entirely unaffected by event `A`'s failure. -/
theorem claim_C3 {Ev : Type} (b : AnalogBuffer Ev) (m : AMUX Ev) (evA evB : Ev)
    (hm : b.amux = some m) (e : String)
    (hfail : (m.entry_point b.buffer_index evA).result = Except.error e) :
    (b.buffer_in evA).caught = some e
  ∧ (b.buffer_in evA).actions = b.traversalActions evA ++
      [SimAction.request b.buffer_index evA,
       SimAction.suspend (m.entry_point b.buffer_index evA).time]
  ∧ (b.run_event evA).buffer_in evB = b.buffer_in evB := by
  refine ⟨?_, ?_, rfl⟩
  · rw [buffer_in_some b evA m hm, hfail]
  · rw [buffer_in_some b evA m hm]

/-- Witness for C3: with a rejecting downstream mux attached to the
test stage, event 0's rejection is caught and recorded, and a later
run for event 1 is unchanged. -/
theorem claim_C3_witness :
    ((testStage.set_amux rejectingMux).buffer_in 0).caught = some "RoutingRejection"
  ∧ ((testStage.set_amux rejectingMux).buffer_in 0).actions =
      (testStage.set_amux rejectingMux).traversalActions 0 ++
      [SimAction.request (testStage.set_amux rejectingMux).buffer_index 0,
       SimAction.suspend
         (rejectingMux.entry_point (testStage.set_amux rejectingMux).buffer_index 0).time]
  ∧ ((testStage.set_amux rejectingMux).run_event 0).buffer_in 1 =
      (testStage.set_amux rejectingMux).buffer_in 1 :=
  claim_C3 (testStage.set_amux rejectingMux) rejectingMux 0 1 rfl "RoutingRejection" rfl

/-- C4: with a downstream mux set, `remove_from_buffer` issues exactly
one routing request, tagged with this stage's `buffer_index` and
carrying the event record unmodified, then waits for the spawned
process and passes its outcome through; no second request is ever
issued, whatever the outcome (no retries). -/
theorem claim_C4 {Ev : Type} (b : AnalogBuffer Ev) (event : Ev) (m : AMUX Ev)
    (hm : b.amux = some m) :
    (b.remove_from_buffer event b.amux).actions =
      [SimAction.request b.buffer_index event,
       SimAction.suspend (m.entry_point b.buffer_index event).time]
  ∧ ((b.remove_from_buffer event b.amux).actions.countP (fun a => a.isRequest)) = 1
  ∧ (b.remove_from_buffer event b.amux).outcome =
      (m.entry_point b.buffer_index event).result
  ∧ ((b.buffer_in event).actions.countP (fun a => a.isRequest)) = 1 := by
  rw [hm]
  refine ⟨rfl, ?_, rfl, ?_⟩
  · simp [AnalogBuffer.remove_from_buffer, List.countP_cons, SimAction.isRequest]
  · rw [buffer_in_some b event m hm, List.countP_append, traversal_no_request]
    simp [List.countP_cons, SimAction.isRequest]

/-- Witness for C4: the test stage wired to an accepting mux issues
exactly one request for event 7. -/
theorem claim_C4_witness :
    ((testStage.set_amux acceptingMux).remove_from_buffer 7
        (testStage.set_amux acceptingMux).amux).actions =
      [SimAction.request (testStage.set_amux acceptingMux).buffer_index 7,
       SimAction.suspend
         (acceptingMux.entry_point (testStage.set_amux acceptingMux).buffer_index 7).time]
  ∧ (((testStage.set_amux acceptingMux).remove_from_buffer 7
        (testStage.set_amux acceptingMux).amux).actions.countP (fun a => a.isRequest)) = 1
  ∧ ((testStage.set_amux acceptingMux).remove_from_buffer 7
        (testStage.set_amux acceptingMux).amux).outcome =
      (acceptingMux.entry_point (testStage.set_amux acceptingMux).buffer_index 7).result
  ∧ (((testStage.set_amux acceptingMux).buffer_in 7).actions.countP
        (fun a => a.isRequest)) = 1 :=
  claim_C4 (testStage.set_amux acceptingMux) 7 acceptingMux rfl

/-- C5: the dropped-event counter starts at zero at construction, is
monotonically non-decreasing under every per-event run (and is
untouched by `set_amux`), and dropping `K` events through a stage with
no downstream mux — whatever the start times, and therefore whatever
the interleaving of the `K` concurrent traversals — leaves the final
counter at exactly the initial value plus `K`. -/
theorem claim_C5 {Ev : Type} (b : AnalogBuffer Ev) (hb : b.amux = none)
    (starts : List (ℚ × Ev)) :
    (∀ (bi : Nat) (loc : String) (sl : ℚ) (bl : Nat) (cd : ℚ) (dbg : Bool),
      (AnalogBuffer.init bi loc sl bl cd dbg : AnalogBuffer Ev).downstream_events_processed = 0)
  ∧ (∀ (c : AnalogBuffer Ev) (ev : Ev),
      c.downstream_events_processed ≤ (c.run_event ev).downstream_events_processed)
  ∧ (∀ (c : AnalogBuffer Ev) (m : AMUX Ev),
      (c.set_amux m).downstream_events_processed = c.downstream_events_processed)
  ∧ (runSim ⟨0, b.downstream_events_processed, startedProcs b starts⟩).counter =
      b.downstream_events_processed + starts.length := by
  refine ⟨fun _ _ _ _ _ _ => rfl, ?_, fun _ _ => rfl, ?_⟩
  · intro c ev
    exact Nat.le_add_right _ _
  · rw [runSim_counter]
    simp [totalIncrs_startedProcs b hb starts]

/-- Witness for C5: three events dropped through the test stage, with
interleaved start times, raise the counter from 0 to 3. -/
theorem claim_C5_witness :
    (∀ (bi : Nat) (loc : String) (sl : ℚ) (bl : Nat) (cd : ℚ) (dbg : Bool),
      (AnalogBuffer.init bi loc sl bl cd dbg : AnalogBuffer Nat).downstream_events_processed = 0)
  ∧ (∀ (c : AnalogBuffer Nat) (ev : Nat),
      c.downstream_events_processed ≤ (c.run_event ev).downstream_events_processed)
  ∧ (∀ (c : AnalogBuffer Nat) (m : AMUX Nat),
      (c.set_amux m).downstream_events_processed = c.downstream_events_processed)
  ∧ (runSim ⟨0, testStage.downstream_events_processed,
        startedProcs testStage [(0, 0), (1, 1), (2, 2)]⟩).counter =
      testStage.downstream_events_processed + ([((0 : ℚ), (0 : Nat)), (1, 1), (2, 2)]).length :=
  claim_C5 testStage rfl [(0, 0), (1, 1), (2, 2)]

/-- C6: starting `N ≥ 1` events at virtual times `0, 1, …, N-1` into
the test suite's stage (five cells, per-cell time 1, no chaining
overhead, no downstream mux) reaches quiescence at virtual time
`5 + (N - 1)`: the concurrent traversals are independent, none blocks
or serialises against another, so the run ends when the last-started
event finishes its own five-unit traversal. -/
theorem claim_C6 (N : Nat) (h : 1 ≤ N) :
    (runSim ⟨0, 0, multiEventProcs N testStage⟩).now = 5 + ((N : ℚ) - 1) := by
  rw [runSim_now (multiEventProcs_nonneg N)]
  rw [multiEventProcs_maxFinish N h]
  ring

/-- Witness for C6: five events, started one virtual time unit apart,
finish at virtual time 9, as in `test_multiple_events`. -/
theorem claim_C6_witness :
    (runSim ⟨0, 0, multiEventProcs 5 testStage⟩).now = 9 := by
  have h := claim_C6 5 (by norm_num)
  rw [h]
  norm_num

/-- C7: the traversal's total elapsed time is a deterministic function
of (cell count, per-cell time, chaining overhead) alone — two stages
agreeing on those three parameters have equal traversal times for any
two events, whatever their location, index, debug flag, counter or
downstream reference — it is non-negative whenever the two time
parameters are, and setting or changing the downstream reference
leaves it unchanged. -/
theorem claim_C7 {Ev : Type} (b1 b2 : AnalogBuffer Ev) (ev1 ev2 : Ev)
    (hC : b1.buffer_length = b2.buffer_length)
    (hP : b1.sample_length = b2.sample_length)
    (hD : b1.chain_delay = b2.chain_delay)
    (hP0 : 0 ≤ b1.sample_length) (hD0 : 0 ≤ b1.chain_delay) :
    elapsed (b1.traversalActions ev1) = elapsed (b2.traversalActions ev2)
  ∧ 0 ≤ elapsed (b1.traversalActions ev1)
  ∧ (∀ m : AMUX Ev, elapsed ((b1.set_amux m).traversalActions ev1) =
      elapsed (b1.traversalActions ev1)) := by
  refine ⟨?_, ?_, fun m => rfl⟩
  · rw [elapsed_traversal, elapsed_traversal, hC, hP, hD]
  · rw [elapsed_traversal]
    exact mul_nonneg (Nat.cast_nonneg _) (by linarith)

/-- Witness for C7: the bare test stage and the same stage wired to an
accepting mux give the same, non-negative traversal time for two
different events. -/
theorem claim_C7_witness :
    elapsed (testStage.traversalActions 0) =
      elapsed ((testStage.set_amux acceptingMux).traversalActions 3)
  ∧ 0 ≤ elapsed (testStage.traversalActions 0)
  ∧ (∀ m : AMUX Nat, elapsed ((testStage.set_amux m).traversalActions 0) =
      elapsed (testStage.traversalActions 0)) :=
  claim_C7 testStage (testStage.set_amux acceptingMux) 0 3 rfl rfl rfl
    (by norm_num [testStage, AnalogBuffer.init]) (by norm_num [testStage, AnalogBuffer.init])

/-- C8: cell traversal never fails on its own: `sample_and_hold_unit`
is a cell-entry marker plus one suspension, with no failure branch,
and any failure the orchestration catches can only have come from the
downstream handoff — it implies a downstream mux is set and its
`entry_point` failed with that very reason. -/
theorem claim_C8 {Ev : Type} (b : AnalogBuffer Ev) (event : Ev) (e : String)
    (h : (b.buffer_in event).caught = some e) :
    (∀ i : Nat, b.sample_and_hold_unit event i =
      [SimAction.visit i, SimAction.suspend b.sample_length])
  ∧ ∃ m : AMUX Ev, b.amux = some m ∧
      (m.entry_point b.buffer_index event).result = Except.error e := by
  refine ⟨fun i => rfl, ?_⟩
  cases ha : b.amux with
  | none =>
    rw [buffer_in_none b event ha] at h
    exact absurd h (by simp)
  | some m =>
    rw [buffer_in_some b event m ha] at h
    refine ⟨m, rfl, ?_⟩
    cases hr : (m.entry_point b.buffer_index event).result with
    | ok u => rw [hr] at h; exact absurd h (by simp)
    | error e' =>
      rw [hr] at h
      simp only [Option.some.injEq] at h
      rw [h]

/-- Witness for C8: the test stage wired to the rejecting mux catches
exactly the mux's rejection. -/
theorem claim_C8_witness :
    (∀ i : Nat, (testStage.set_amux rejectingMux).sample_and_hold_unit 0 i =
      [SimAction.visit i, SimAction.suspend (testStage.set_amux rejectingMux).sample_length])
  ∧ ∃ m : AMUX Nat, (testStage.set_amux rejectingMux).amux = some m ∧
      (m.entry_point (testStage.set_amux rejectingMux).buffer_index 0).result =
        Except.error "RoutingRejection" :=
  claim_C8 (testStage.set_amux rejectingMux) 0 "RoutingRejection" rfl

theorem request_not_mem_traversal {Ev : Type} (b : AnalogBuffer Ev) (event : Ev)
    (src : Nat) (e : Ev) : SimAction.request src e ∉ b.traversalActions event := by
  intro hmem
  have h0 := traversal_no_request b event
  rw [List.countP_eq_zero] at h0
  exact h0 _ hmem (by simp [SimAction.isRequest])

/-- C9: a per-event run leaves every stage field except the
dropped-event counter unchanged — index, location, timing parameters,
debug flag and downstream reference are only read — and every routing
request the run emits carries the event record itself, unmodified, and
the stage's own index. -/
theorem claim_C9 {Ev : Type} (b : AnalogBuffer Ev) (event : Ev) :
    (b.run_event event).buffer_index = b.buffer_index
  ∧ (b.run_event event).buffer_location = b.buffer_location
  ∧ (b.run_event event).sample_length = b.sample_length
  ∧ (b.run_event event).buffer_length = b.buffer_length
  ∧ (b.run_event event).chain_delay = b.chain_delay
  ∧ (b.run_event event).debug = b.debug
  ∧ (b.run_event event).amux = b.amux
  ∧ (∀ (src : Nat) (e : Ev), SimAction.request src e ∈ (b.buffer_in event).actions →
      e = event ∧ src = b.buffer_index) := by
  refine ⟨rfl, rfl, rfl, rfl, rfl, rfl, rfl, ?_⟩
  intro src e hmem
  cases ha : b.amux with
  | none =>
    rw [buffer_in_none b event ha] at hmem
    exact absurd hmem (request_not_mem_traversal b event src e)
  | some m =>
    rw [buffer_in_some b event m ha] at hmem
    rcases List.mem_append.mp hmem with hmem | hmem
    · exact absurd hmem (request_not_mem_traversal b event src e)
    · simp only [List.mem_cons, List.not_mem_nil, or_false] at hmem
      rcases hmem with h1 | h1
      · injection h1 with h2 h3
        exact ⟨h3, h2⟩
      · exact SimAction.noConfusion h1

/-- C10: when a downstream mux is configured, the dropped-event
counter is never incremented for that event — even when the routing
request fails — and the rejection is visible only as the caught,
suppressed failure reason; the counter counts only terminal drops. -/
theorem claim_C10 {Ev : Type} (b : AnalogBuffer Ev) (event : Ev) (m : AMUX Ev)
    (hm : b.amux = some m) :
    (b.buffer_in event).counterDelta = 0
  ∧ (b.run_event event).downstream_events_processed = b.downstream_events_processed
  ∧ (∀ e : String, (m.entry_point b.buffer_index event).result = Except.error e →
      (b.buffer_in event).caught = some e) := by
  refine ⟨?_, ?_, ?_⟩
  · rw [buffer_in_some b event m hm]
  · simp [AnalogBuffer.run_event, AnalogBuffer.apply_run, buffer_in_some b event m hm]
  · intro e hfail
    rw [buffer_in_some b event m hm, hfail]

/-- Witness for C10: the test stage wired to the rejecting mux keeps
its counter at 0 for a rejected event, and records the rejection. -/
theorem claim_C10_witness :
    ((testStage.set_amux rejectingMux).buffer_in 0).counterDelta = 0
  ∧ ((testStage.set_amux rejectingMux).run_event 0).downstream_events_processed =
      (testStage.set_amux rejectingMux).downstream_events_processed
  ∧ (∀ e : String,
      (rejectingMux.entry_point (testStage.set_amux rejectingMux).buffer_index 0).result =
        Except.error e →
      ((testStage.set_amux rejectingMux).buffer_in 0).caught = some e) :=
  claim_C10 (testStage.set_amux rejectingMux) 0 rejectingMux rfl
